import Mathlib

/-!
Shallow embedding of the shortcut-helper content script (src/content.js):
character classes of its regexes, the arithmetic evaluator `calculate`
(sanitize, tokenize, recursive-descent parse, post-processing), the lorem
generator `generateLoremIpsum`, the emoji splitter `splitEmojis`, the
trigger matcher of `handleInput` (calculator, count-bearing and count-less
patterns) and the commit-time replacement `replaceShortcut`.

Strings are modelled as `List Char`.  JavaScript IEEE-754 numbers are
modelled as exact values: finite numbers as normalized rationals (`JRat`,
a hand-rolled rational whose gcd runs on fuel so that the kernel can
evaluate it), plus `Infinity`, `-Infinity` and `NaN` (`JVal`), since the
evaluator's division-by-zero branch produces `Infinity` and missing
operands produce `NaN`.  Randomness (`Math.random` in emoji sampling) is
modelled by an oracle `pick : Nat → Nat` carried in the environment.
-/

/-! ## Character classes used by the source regexes -/

/-- ASCII digit, the class `[0-9]` / `\d` of the source regexes. -/
def isDigitCh (c : Char) : Bool := 48 ≤ c.toNat && c.toNat ≤ 57

/-- The single-character operator class `[+\-*/%()]` of the tokenizer
`sanitized.match(/(\d+\.?\d*|[+\-*\/%()])/g)`. -/
def isOpCh (c : Char) : Bool :=
  c.toNat = 43 || c.toNat = 45 || c.toNat = 42 || c.toNat = 47 ||
  c.toNat = 37 || c.toNat = 40 || c.toNat = 41

/-- JavaScript `\s` (also the set trimmed by `String.prototype.trim`):
tab through carriage return, space, NBSP, Ogham space mark, the
U+2000..U+200A range, line/paragraph separator, narrow NBSP, medium
mathematical space, ideographic space and the BOM. -/
def isJsWsCh (c : Char) : Bool :=
  let n := c.toNat
  (9 ≤ n && n ≤ 13) || n = 32 || n = 160 || n = 5760 ||
  (8192 ≤ n && n ≤ 8202) || n = 8232 || n = 8233 || n = 8239 ||
  n = 8287 || n = 12288 || n = 65279

/-- JavaScript line terminators, the characters the regexp metacharacter
`.` does NOT match: LF, CR, U+2028, U+2029. -/
def isLineTermCh (c : Char) : Bool :=
  c.toNat = 10 || c.toNat = 13 || c.toNat = 8232 || c.toNat = 8233

/-- The class `[a-zA-Z0-9]` of the trigger-key regexes. -/
def isAlnumCh (c : Char) : Bool :=
  let n := c.toNat
  (48 ≤ n && n ≤ 57) || (65 ≤ n && n ≤ 90) || (97 ≤ n && n ≤ 122)

/-- Characters kept by `expression.replace(/[^0-9+\-*\/%().\s]/g, '')`:
digits, the seven operators, the dot and whitespace. -/
def sanitizeKeep (c : Char) : Bool :=
  isDigitCh c || isOpCh c || c.toNat = 46 || isJsWsCh c

/-! ## Basic list/string helpers -/

/-- Left trim of JavaScript whitespace. -/
def ltrimWs (s : List Char) : List Char := s.dropWhile isJsWsCh

/-- Right trim of JavaScript whitespace. -/
def rtrimWs (s : List Char) : List Char := (s.reverse.dropWhile isJsWsCh).reverse

/-- Model of `String.prototype.trim`. -/
def trimWs (s : List Char) : List Char := rtrimWs (ltrimWs s)

/-- The sanitize step of `calculate`:
`expression.replace(/[^0-9+\-*\/%().\s]/g, '').trim()`. -/
def sanitize (e : List Char) : List Char := trimWs (e.filter sanitizeKeep)

/-- The digit test `/[0-9]/.test(sanitized)`. -/
def hasDigit (s : List Char) : Bool := s.any isDigitCh

/-- Predicate: `pat` occurs in `v` starting at index `i` (the notion underlying
`String.prototype.lastIndexOf` and `includes`). -/
def occursAt (pat v : List Char) (i : Nat) : Prop :=
  i + pat.length ≤ v.length ∧ (v.drop i).take pat.length = pat

instance occursAt.decide (pat v : List Char) (i : Nat) : Decidable (occursAt pat v i) := by
  unfold occursAt; exact inferInstance

/-- Model of `value.includes(pat)`. -/
def containsSub (v pat : List Char) : Bool :=
  (List.range (v.length + 1)).any (fun i => decide (occursAt pat v i))

/-- Search downward from `k` for the largest start index at which `pat`
occurs, the way `String.prototype.lastIndexOf` scans from the end. -/
def lastIndexOfAux (v pat : List Char) : Nat → Option Nat
  | 0 => if occursAt pat v 0 then some 0 else none
  | k + 1 => if occursAt pat v (k + 1) then some (k + 1) else lastIndexOfAux v pat k

/-- Model of `value.lastIndexOf(pat)`, as `none` instead of `-1` when absent. -/
def lastIndexOf (v pat : List Char) : Option Nat := lastIndexOfAux v pat v.length

/-- Digit characters of a natural number, most significant first
(`String(n)` for a whole JavaScript number); fuel variant so the kernel
can evaluate it. -/
def natDigitsGo : Nat → Nat → List Char → List Char
  | 0, _, acc => acc
  | fuel + 1, n, acc =>
    if n < 10 then Char.ofNat (48 + n) :: acc
    else natDigitsGo fuel (n / 10) (Char.ofNat (48 + n % 10) :: acc)

/-- Decimal rendering of a natural number. -/
def natToChars (n : Nat) : List Char := natDigitsGo (n + 1) n []

/-- Model of `parseInt(digits, 10)` on a string of ASCII digits. -/
def natOfDigits (ds : List Char) : Nat :=
  ds.foldl (fun a c => a * 10 + (c.toNat - 48)) 0

/-! ## Exact rationals with kernel-evaluable gcd -/

/-- Computes `Nat.gcd` on fuel (the library gcd is well-founded and does not reduce
in the kernel); `gcdF (a+1) a b = Nat.gcd a b`. -/
def gcdF : Nat → Nat → Nat → Nat
  | 0, a, _ => a
  | f + 1, a, b => if a = 0 then b else gcdF f (b % a) a

/-- Kernel-evaluable gcd. -/
def ngcd (a b : Nat) : Nat := gcdF (a + 1) a b

/-- A rational in lowest terms with positive denominator (denominator `0`
is an unused junk value: every construction site divides by a nonzero
denominator).  Models a finite JavaScript number exactly. -/
structure JRat where
  num : Int
  den : Nat
deriving DecidableEq, Repr

/-- Normalized rational `n / d` (for `d ≠ 0`). -/
def mkJRat (n d : Int) : JRat :=
  if d = 0 then ⟨0, 0⟩
  else
    let n1 := if d < 0 then -n else n
    let dn : Nat := d.natAbs
    let g := ngcd n1.natAbs dn
    ⟨Int.tdiv n1 (g : Int), dn / g⟩

/-- Embed a natural number. -/
def JRat.ofNat (n : Nat) : JRat := ⟨(n : Int), 1⟩

def JRat.add (a b : JRat) : JRat :=
  mkJRat (a.num * (b.den : Int) + b.num * (a.den : Int)) ((a.den : Int) * (b.den : Int))

def JRat.sub (a b : JRat) : JRat :=
  mkJRat (a.num * (b.den : Int) - b.num * (a.den : Int)) ((a.den : Int) * (b.den : Int))

def JRat.mul (a b : JRat) : JRat :=
  mkJRat (a.num * b.num) ((a.den : Int) * (b.den : Int))

/-- Exact `a / b` for `b ≠ 0`. -/
def JRat.div (a b : JRat) : JRat :=
  mkJRat (a.num * (b.den : Int)) ((a.den : Int) * b.num)

def JRat.neg (a : JRat) : JRat := ⟨-a.num, a.den⟩

/-- Truncation toward zero, `Math.trunc`. -/
def JRat.trunc (a : JRat) : Int := Int.tdiv a.num (a.den : Int)

/-- Floor (toward `-∞`). -/
def JRat.floor (a : JRat) : Int := Int.fdiv a.num (a.den : Int)

/-- Strictly positive test (denominators are positive, so this is the
sign of the numerator). -/
def JRat.pos (a : JRat) : Bool := 0 < a.num

/-- JavaScript remainder `a % b` for finite operands, `b ≠ 0`:
`a - b * trunc(a / b)` (sign follows the dividend). -/
def JRat.rem (a b : JRat) : JRat :=
  JRat.sub a (JRat.mul b ⟨JRat.trunc (JRat.div a b), 1⟩)

/-- Model of `parseFloat(result.toFixed(4))`: round to 4 decimal places, ties away
from the smaller value (ECMA toFixed picks the larger candidate on ties),
i.e. `floor(q·10⁴ + 1/2) / 10⁴`. -/
def round4 (q : JRat) : JRat :=
  mkJRat (JRat.floor (JRat.add (JRat.mul q ⟨10000, 1⟩) ⟨1, 2⟩)) 10000

/-! ## JavaScript numbers: finite, infinities, NaN -/

/-- A JavaScript number as the evaluator can produce it: an exact finite
value, `Infinity`, `-Infinity` or `NaN`. -/
inductive JVal where
  | num (q : JRat)
  | inf
  | negInf
  | nan
deriving DecidableEq, Repr

/-- JavaScript `left + right`. -/
def jadd : JVal → JVal → JVal
  | .nan, _ => .nan
  | _, .nan => .nan
  | .num a, .num b => .num (JRat.add a b)
  | .num _, .inf => .inf
  | .num _, .negInf => .negInf
  | .inf, .num _ => .inf
  | .negInf, .num _ => .negInf
  | .inf, .inf => .inf
  | .negInf, .negInf => .negInf
  | .inf, .negInf => .nan
  | .negInf, .inf => .nan

/-- JavaScript `left - right`. -/
def jsub : JVal → JVal → JVal
  | .nan, _ => .nan
  | _, .nan => .nan
  | .num a, .num b => .num (JRat.sub a b)
  | .num _, .inf => .negInf
  | .num _, .negInf => .inf
  | .inf, .num _ => .inf
  | .negInf, .num _ => .negInf
  | .inf, .inf => .nan
  | .negInf, .negInf => .nan
  | .inf, .negInf => .inf
  | .negInf, .inf => .negInf

/-- JavaScript `left * right`. -/
def jmul : JVal → JVal → JVal
  | .nan, _ => .nan
  | _, .nan => .nan
  | .num a, .num b => .num (JRat.mul a b)
  | .inf, .num b => if JRat.pos b then .inf else if b.num = 0 then .nan else .negInf
  | .negInf, .num b => if JRat.pos b then .negInf else if b.num = 0 then .nan else .inf
  | .num a, .inf => if JRat.pos a then .inf else if a.num = 0 then .nan else .negInf
  | .num a, .negInf => if JRat.pos a then .negInf else if a.num = 0 then .nan else .inf
  | .inf, .inf => .inf
  | .negInf, .negInf => .inf
  | .inf, .negInf => .negInf
  | .negInf, .inf => .negInf

/-- The parser's division step
`left = right !== 0 ? left / right : Infinity`: a right operand equal to
the number zero gives `Infinity` unconditionally; otherwise IEEE
division. -/
def jdivJS (a b : JVal) : JVal :=
  if b = JVal.num ⟨0, 1⟩ then JVal.inf
  else
    match a, b with
    | .nan, _ => .nan
    | _, .nan => .nan
    | .num x, .num y => .num (JRat.div x y)
    | .num _, .inf => .num ⟨0, 1⟩
    | .num _, .negInf => .num ⟨0, 1⟩
    | .inf, .num y => if JRat.pos y then .inf else .negInf
    | .negInf, .num y => if JRat.pos y then .negInf else .inf
    | .inf, _ => .nan
    | .negInf, _ => .nan

/-- JavaScript `left % right`, host remainder semantics. -/
def jmodJS : JVal → JVal → JVal
  | .nan, _ => .nan
  | _, .nan => .nan
  | .num a, .num b => if b.num = 0 then .nan else .num (JRat.rem a b)
  | .inf, _ => .nan
  | .negInf, _ => .nan
  | .num a, .inf => .num a
  | .num a, .negInf => .num a

/-- Unary minus. -/
def jneg : JVal → JVal
  | .num a => .num (JRat.neg a)
  | .inf => .negInf
  | .negInf => .inf
  | .nan => .nan

/-! ## Tokenizer -/

/-- Scanner state for the global regex
`/(\d+\.?\d*|[+\-*\/%()])/g`: scanning between tokens, inside the
integer-digit run of a number, or inside the fraction-digit run after the
optional dot. -/
inductive TokMode where
  | norm
  | intPart (acc : List Char)
  | fracPart (acc : List Char)

/-- One left-to-right pass of the tokenizer; characters matching neither
alternative (whitespace, stray dots) are skipped, exactly as a global
regex match skips them.  Accumulators are kept reversed. -/
def tokGo : List Char → TokMode → List (List Char)
  | [], .norm => []
  | [], .intPart acc => [acc.reverse]
  | [], .fracPart acc => [acc.reverse]
  | c :: t, .norm =>
    if isDigitCh c then tokGo t (.intPart [c])
    else if isOpCh c then [c] :: tokGo t .norm
    else tokGo t .norm
  | c :: t, .intPart acc =>
    if isDigitCh c then tokGo t (.intPart (c :: acc))
    else if c.toNat = 46 then tokGo t (.fracPart (c :: acc))
    else if isOpCh c then acc.reverse :: [c] :: tokGo t .norm
    else acc.reverse :: tokGo t .norm
  | c :: t, .fracPart acc =>
    if isDigitCh c then tokGo t (.fracPart (c :: acc))
    else if isOpCh c then acc.reverse :: [c] :: tokGo t .norm
    else acc.reverse :: tokGo t .norm

/-- Model of `sanitized.match(/(\d+\.?\d*|[+\-*\/%()])/g)` — the token list (the
source gets `null` for no match; here simply `[]`). -/
def tokenize (s : List Char) : List (List Char) := tokGo s .norm

/-- Model of `parseFloat(token)` on a tokenizer token: number tokens
`\d+\.?\d*` parse exactly; operator tokens (which the grammar can feed to
`parseFloat` after a misplaced operator) give `NaN`. -/
def jsParseFloat (t : List Char) : JVal :=
  let ds := t.takeWhile isDigitCh
  if ds.isEmpty then JVal.nan
  else
    match t.drop ds.length with
    | '.' :: fs =>
      let es := fs.takeWhile isDigitCh
      JVal.num (mkJRat ((natOfDigits ds : Int) * (10 ^ es.length : Nat) +
        (natOfDigits es : Int)) ((10 : Int) ^ es.length)
        )
    | _ => JVal.num ⟨(natOfDigits ds : Int), 1⟩

/-! ## Recursive-descent parser

The source keeps a cursor `pos` into the token array; `consume()` is
`tokens[pos++]` and increments `pos` even past the end (returning
`undefined`, which `parseFactor` turns into `NaN`).  Here the remaining
token list replaces `pos`, and the Boolean records whether a consume past
the end happened (so that the final `pos !== tokens.length` test is
`rem ≠ [] or overconsumed`).  The five mutually recursive source
functions become one fuel-indexed step function so that the kernel can
evaluate it; `parseStepTotal` below shows the fuel used by `calculate`
always suffices. -/

/-- Which of the source parser functions is running: `parseExpr`, its
additive loop (with the running left value and overconsume flag),
`parseTerm`, its multiplicative loop, or `parseFactor`. -/
inductive PFn where
  | expr
  | exprLoop (left : JVal) (ov : Bool)
  | term
  | termLoop (left : JVal) (ov : Bool)
  | factor

/-- Rank of a parser function for the fuel bound: along any call chain
the pair (remaining tokens, rank) strictly decreases lexicographically. -/
def pfnRank : PFn → Nat
  | .expr => 4
  | .exprLoop _ _ => 3
  | .term => 2
  | .termLoop _ _ => 1
  | .factor => 0

/-- The parser.  `none` is fuel exhaustion only, never a source outcome. -/
def parseStep : Nat → PFn → List (List Char) → Option (JVal × List (List Char) × Bool)
  | 0, _, _ => none
  | f + 1, .expr, ts =>
    (parseStep f .term ts).bind fun r => parseStep f (.exprLoop r.1 r.2.2) r.2.1
  | f + 1, .exprLoop left ov, ts =>
    match ts with
    | [] => some (left, [], ov)
    | t :: rest =>
      if t = ['+'] then
        (parseStep f .term rest).bind fun r =>
          parseStep f (.exprLoop (jadd left r.1) (ov || r.2.2)) r.2.1
      else if t = ['-'] then
        (parseStep f .term rest).bind fun r =>
          parseStep f (.exprLoop (jsub left r.1) (ov || r.2.2)) r.2.1
      else some (left, t :: rest, ov)
  | f + 1, .term, ts =>
    (parseStep f .factor ts).bind fun r => parseStep f (.termLoop r.1 r.2.2) r.2.1
  | f + 1, .termLoop left ov, ts =>
    match ts with
    | [] => some (left, [], ov)
    | t :: rest =>
      if t = ['*'] then
        (parseStep f .factor rest).bind fun r =>
          parseStep f (.termLoop (jmul left r.1) (ov || r.2.2)) r.2.1
      else if t = ['/'] then
        (parseStep f .factor rest).bind fun r =>
          parseStep f (.termLoop (jdivJS left r.1) (ov || r.2.2)) r.2.1
      else if t = ['%'] then
        (parseStep f .factor rest).bind fun r =>
          parseStep f (.termLoop (jmodJS left r.1) (ov || r.2.2)) r.2.1
      else some (left, t :: rest, ov)
  | f + 1, .factor, ts =>
    match ts with
    | [] => some (.nan, [], true)
    | t :: rest =>
      if t = ['('] then
        (parseStep f .expr rest).bind fun r =>
          match r.2.1 with
          | u :: us => if u = [')'] then some (r.1, us, r.2.2) else some (r.1, u :: us, r.2.2)
          | [] => some (r.1, [], r.2.2)
      else if t = ['-'] then
        (parseStep f .factor rest).bind fun r => some (jneg r.1, r.2.1, r.2.2)
      else some (jsParseFloat t, rest, false)

/-- Fuel that always suffices for a full parse (see `parseStepTotal`). -/
def parseFuel (ts : List (List Char)) : Nat := 5 * ts.length + 5

/-- Outcome of `calculate`: `notExpr` is the source's `null` ("not an
expression"), `errorRes` is the string `'Error'` (non-finite result),
`num` a finite number. -/
inductive CalcResult where
  | notExpr
  | errorRes
  | num (q : JRat)
deriving DecidableEq, Repr

/-- The evaluation pipeline of `calculate` up to (not including) the
finite/integer post-processing: `none` exactly on the source's `null`
paths (empty sanitized string, no digit, no tokens, tokens not all
consumed). -/
def evalRaw (e : List Char) : Option JVal :=
  if (sanitize e).isEmpty then none
  else if !hasDigit (sanitize e) then none
  else
    match tokenize (sanitize e) with
    | [] => none
    | t :: ts =>
      match parseStep (parseFuel (t :: ts)) .expr (t :: ts) with
      | none => none
      | some (v, rem, ov) => if rem.isEmpty && !ov then some v else none

/-- Model of `calculate(expression)` of src/content.js:387-459: `null` becomes
`notExpr`, the string `'Error'` becomes `errorRes`, and a finite result
is returned unchanged when integral, else rounded to 4 decimal places. -/
def calculate (e : List Char) : CalcResult :=
  match evalRaw e with
  | none => .notExpr
  | some (.num q) => .num (if q.den = 1 then q else round4 q)
  | some _ => .errorRes

/-! ## Rendering a calculator result

`result.toString()` for the values `calculate` can return: every finite
result has been post-processed, so its denominator divides 10⁴ and it
prints as a plain decimal with up to 4 fractional digits (trailing zeros
stripped, as the shortest round-tripping representation does). -/

/-- Decimal rendering of a post-processed finite result. -/
def renderJRat (q : JRat) : List Char :=
  let t : Int := JRat.floor (JRat.add (JRat.mul q ⟨10000, 1⟩) ⟨1, 2⟩)
  let a := t.natAbs
  let ip := a / 10000
  let fr := a % 10000
  let sign : List Char := if t < 0 then ['-'] else []
  if fr = 0 then sign ++ natToChars ip
  else
    let ds := natToChars fr
    let padded := List.replicate (4 - ds.length) '0' ++ ds
    sign ++ natToChars ip ++ '.' :: (padded.reverse.dropWhile (fun c => c == '0')).reverse

/-- String form of a `calculate` outcome as `replaceShortcut` and the
preview use it: the literal text `Error` for the non-finite outcome.
(`notExpr` never reaches a rendering site; its arm is arbitrary.) -/
def renderCalc : CalcResult → List Char
  | .errorRes => "Error".data
  | .num q => renderJRat q
  | .notExpr => []

/-! ## Lorem generator -/

/-- The fixed base paragraph of `generateLoremIpsum`. -/
def loremBase : List Char :=
  "Lorem ipsum dolor sit amet, consectetur adipiscing elit. Sed do eiusmod tempor incididunt ut labore et dolore magna aliqua. Ut enim ad minim veniam, quis nostrud exercitation ullamco laboris nisi ut aliquip ex ea commodo consequat. Duis aute irure dolor in reprehenderit in voluptate velit esse cillum dolore eu fugiat nulla pariatur. Excepteur sint occaecat cupidatat non proident, sunt in culpa qui officia deserunt mollit anim id est laborum.".data

/-- Split into maximal nonblank runs, dropping empties — on the base
paragraph (no leading/trailing blank, single spaces) this is exactly
`loremBase.split(/\s+/)`.  The accumulator is kept reversed. -/
def wordsOfAux : List Char → List Char → List (List Char)
  | [], acc => if acc.isEmpty then [] else [acc.reverse]
  | c :: t, acc =>
    if isJsWsCh c then
      if acc.isEmpty then wordsOfAux t [] else acc.reverse :: wordsOfAux t []
    else wordsOfAux t (c :: acc)

/-- Whitespace-run split (also the word counter used by the theorems). -/
def wordsOf (s : List Char) : List (List Char) := wordsOfAux s []

/-- The list `loremBase.split(/\s+/)` — the 69 base words. -/
def loremWords : List (List Char) := wordsOf loremBase

/-- Model of `Array.prototype.join(' ')`. -/
def joinSpace : List (List Char) → List Char
  | [] => []
  | [w] => w
  | w :: ws => w ++ ' ' :: joinSpace ws

/-- The source's `while (result.length < count) result = result.concat(words)`
loop; fuel = `target` iterations always suffices because the word list at
the one call site (`loremWords`) is nonempty. -/
def growWords (ws : List (List Char)) (target : Nat) : Nat → List (List Char) → List (List Char)
  | 0, acc => acc
  | fuel + 1, acc => if acc.length < target then growWords ws target fuel (acc ++ ws) else acc

/-- Model of `generateLoremIpsum(count)` of src/content.js:462-477: empty for
`count ≤ 0`, hard-capped at 1000 words, else the base words repeated
cyclically, truncated to `count` and joined with single spaces. -/
def generateLoremIpsum (count : Nat) : List Char :=
  if count = 0 then []
  else joinSpace ((growWords loremWords (min count 1000) (min count 1000) []).take (min count 1000))

/-! ## Definition store, emoji sampling, expansion text -/

/-- One stored definition: `{ text, emojis }` (an absent/empty `emojis`
field is the empty list — JavaScript falsiness). -/
structure ShortcutDef where
  text : List Char
  emojis : List Char
deriving DecidableEq, Repr

/-- The ambient state the content script closes over: the shortcut store,
the Unicode property test of the emoji regex
`[\p{Emoji_Presentation}\p{Emoji}\p{Emoji_Modifier}]` (an oracle, since
the Unicode tables live outside the source), and the `Math.random` draw
oracle (`pick i` is the i-th random index before the modulus). -/
structure Env where
  shortcuts : List (List Char × ShortcutDef)
  isEmoji : Char → Bool
  pick : Nat → Nat

/-- Lookup `this.shortcuts[shortcutKey]`. -/
def lookupSc (env : Env) (key : List Char) : Option ShortcutDef :=
  (env.shortcuts.find? (fun p => p.1 == key)).map (fun p => p.2)

/-- Model of `splitEmojis(emojiString)` of src/content.js:569-578: every scalar
matching the per-code-point emoji class becomes its own one-character
element (`match` with a single-character class never groups clusters),
then blank elements are filtered out. -/
def splitEmojis (isEmoji : Char → Bool) (s : List Char) : List (List Char) :=
  ((s.filter isEmoji).map (fun c => [c])).filter (fun e => !(trimWs e).isEmpty)

/-- Model of `getRandomEmojis(emojiString, count)` of src/content.js:581-594 with
the random draws supplied by `env.pick`. -/
def getRandomEmojis (env : Env) (s : List Char) (count : Nat) : List Char :=
  if s.isEmpty || count = 0 then []
  else
    let es := splitEmojis env.isEmoji s
    if es.isEmpty then []
    else ((List.range count).map (fun i => es.getD (env.pick i % es.length) [])).flatten

/-- Model of `generateText(shortcutKey, count)` of src/content.js:480-495. -/
def generateText (env : Env) (key : List Char) (count : Nat) : List Char :=
  match lookupSc env key with
  | none => []
  | some sc =>
    if !sc.emojis.isEmpty && count > 0 then
      let r := getRandomEmojis env sc.emojis count
      if !r.isEmpty then sc.text ++ ' ' :: r else sc.text
    else sc.text

/-! ## The trigger matcher of handleInput -/

/-- The pending match the source stores in `this.currentMatch`
(the unused-at-commit caret snapshot `position` is omitted). -/
structure MatchState where
  shortcutKey : List Char
  count : Nat
  hasCount : Bool
  fullText : List Char
deriving DecidableEq, Repr

/-- Model of `value.match(/\/cal:(.+)$/)`, capture group 1: the leftmost position
where `/cal:` is followed by at least one character and no line
terminator up to end-of-string (`.` matches neither LF, CR, U+2028 nor
U+2029, and `$` without the `m` flag only matches at the very end), the
way a JavaScript regex engine tries start positions left to right. -/
def calExpr : List Char → Option (List Char)
  | [] => none
  | c :: t =>
    if (c :: t).take 5 = "/cal:".data ∧ ¬(c :: t).drop 5 = [] ∧
        ((c :: t).drop 5).all (fun x => !isLineTermCh x) then
      some ((c :: t).drop 5)
    else calExpr t

/-- Model of `value.match(/\/([a-zA-Z0-9]+):(\d+)$/)`: anchored at end-of-string,
so read off the reversed value — a nonempty maximal digit run, a colon, a
nonempty maximal alphanumeric run, a slash.  Returns the `'/' + key` and
the parsed count. -/
def matchWithCount (v : List Char) : Option (List Char × Nat) :=
  let r := v.reverse
  let ds := r.takeWhile isDigitCh
  if ds.isEmpty then none
  else
    match r.drop ds.length with
    | ':' :: r2 =>
      let as := r2.takeWhile isAlnumCh
      if as.isEmpty then none
      else
        match r2.drop as.length with
        | '/' :: _ => some ('/' :: as.reverse, natOfDigits ds.reverse)
        | _ => none
    | _ => none

/-- Model of `value.match(/\/([a-zA-Z0-9]+)$/)`: a nonempty trailing alphanumeric
run preceded by a slash. -/
def matchWithoutCount (v : List Char) : Option (List Char) :=
  let r := v.reverse
  let as := r.takeWhile isAlnumCh
  if as.isEmpty then none
  else
    match r.drop as.length with
    | '/' :: _ => some ('/' :: as.reverse)
    | _ => none

/-- The inline error preview of the lorem branch for `count > 1000`. -/
def loremLimitMsg (count : Nat) : List Char :=
  "<span style=\"color:#ff4444;font-weight:bold;font-size:14px;\">⚠️ Error: Maximum 1000 words allowed!<br>You requested ".data
    ++ natToChars count ++ " words.</span>".data

/-- The calculator candidate and its preview for a nonempty expression:
a successful evaluation (number or `Error`) is a complete candidate with
the rendered result, a failed one (`null`) keeps `fullText` empty and
shows the in-progress preview. -/
def calCandidate (e : List Char) : MatchState × List Char :=
  match calculate e with
  | .notExpr => (⟨"/cal".data, 0, false, []⟩, "🔢 ".data ++ e ++ " = ...".data)
  | r => (⟨"/cal".data, 0, false, renderCalc r⟩, e ++ " = ".data ++ renderCalc r)

/-- Steps 2 and 3 of `handleInput`: the count-bearing pattern (with the
reserved `/lorem` key and its 1000-word cap) first, else the count-less
pattern; an unknown key under a matched count pattern produces nothing
(the count-less branch is `else if`). -/
def matchLower (env : Env) (v : List Char) : Option (MatchState × List Char) :=
  match matchWithCount v with
  | some (key, count) =>
    if key = "/lorem".data then
      if count > 1000 then
        some (⟨key, count, true, []⟩, loremLimitMsg count)
      else
        some (⟨key, count, true, generateLoremIpsum count⟩, generateLoremIpsum count)
    else
      match lookupSc env key with
      | some _ => some (⟨key, count, true, generateText env key count⟩, generateText env key count)
      | none => none
  | none =>
    match matchWithoutCount v with
    | some key =>
      match lookupSc env key with
      | some _ => some (⟨key, 0, false, generateText env key 0⟩, generateText env key 0)
      | none => none
    | none => none

/-- The matching core of `handleInput` (src/content.js:283-382): the
candidate stored in `this.currentMatch` paired with the preview text, or
`none` when no candidate is produced.  Note the source only `return`s
inside `if (calMatch)`: when the value contains `/cal:` but the regex
fails to match (nothing after the last `/cal:`, or a line terminator in
the tail), control falls through to the lower-priority patterns. -/
def handleInputMatch (env : Env) (v : List Char) : Option (MatchState × List Char) :=
  if containsSub v "/cal:".data then
    match calExpr v with
    | some e => if e.isEmpty then none else some (calCandidate e)
    | none => matchLower env v
  else matchLower env v

/-! ## Commit: replaceShortcut -/

/-- The resolution `fullText || this.generateText(shortcutKey, count)`. -/
def resolveFinalText (env : Env) (st : MatchState) : List Char :=
  if st.fullText.isEmpty then generateText env st.shortcutKey st.count else st.fullText

/-- The recomputed literal pattern of src/content.js:967-977: for the
calculator the full regex match (from the matched `/cal:` through
end-of-string, `'/cal'` as fallback when it no longer matches), else
`key:count` when `count > 0`, else the bare key. -/
def commitPattern (value key : List Char) (count : Nat) : List Char :=
  if key = "/cal".data then
    match calExpr value with
    | some e => "/cal:".data ++ e
    | none => "/cal".data
  else if count > 0 then key ++ ':' :: natToChars count
  else key

/-- Model of `replaceShortcut()` of src/content.js:948-1001, as a function of the
surface's current value and the pending `currentMatch`: `none` when the
early guard rejects a stale key, or when `lastIndexOf` finds no
occurrence (the `NoMatchFound` no-op — the surface value is untouched and
`removePreview()` clears the pending state in every path); on success the
new value and the caret position placed right after the inserted text. -/
def replaceShortcut (env : Env) (value : List Char) (st : MatchState) :
    Option (List Char × Nat) :=
  if lookupSc env st.shortcutKey = none ∧ ¬st.shortcutKey = "/lorem".data ∧
      ¬st.shortcutKey = "/cal".data then none
  else
    let finalText := resolveFinalText env st
    let pat := commitPattern value st.shortcutKey st.count
    match lastIndexOf value pat with
    | some i =>
      some (value.take i ++ finalText ++ value.drop (i + pat.length), i + finalText.length)
    | none => none

/-- The source's final consumption test `pos === tokens.length` as a
predicate on a token list: the parse consumed every token and never
consumed past the end. -/
def parseConsumedAll (ts : List (List Char)) : Bool :=
  match parseStep (parseFuel ts) .expr ts with
  | some (_, rem, ov) => rem.isEmpty && !ov
  | none => false

/-- An empty definition store with trivial oracles, for concrete instances. -/
def envEmpty : Env := ⟨[], fun _ => false, fun _ => 0⟩

/-- A one-definition store (`/gm` mapping to "Good morning"), for concrete
instances. -/
def envGm : Env := ⟨[("/gm".data, ⟨"Good morning".data, []⟩)], fun _ => false, fun _ => 0⟩

/-- Modelled from Unicode property data (external to the source): the
per-code-point class of the source regex
`[\p{Emoji_Presentation}\p{Emoji}\p{Emoji_Modifier}]` restricted to the
scalars exercised by the theorems — U+1F44D (thumbs up) and the skin-tone
modifier U+1F3FD are matched (the modifier carries both Emoji and
Emoji_Modifier), the family members U+1F468/U+1F469/U+1F467 are matched,
and U+200D (ZERO WIDTH JOINER) is matched by none of the three
properties. -/
def emojiPropSample (c : Char) : Bool :=
  c.toNat = 0x1F44D || c.toNat = 0x1F3FD || c.toNat = 0x1F468 ||
  c.toNat = 0x1F469 || c.toNat = 0x1F467

/-! # Lemmas -/

/-! ## lastIndexOf -/

theorem occursAt_le_len {pat v : List Char} {j : Nat} (h : occursAt pat v j) :
    j ≤ v.length := by
  have := h.1; omega

theorem lastIndexOfAux_eq_some {v pat : List Char} {i : Nat} (k : Nat)
    (hocc : occursAt pat v i) (hmax : ∀ j, j ≤ k → occursAt pat v j → j ≤ i)
    (hik : i ≤ k) : lastIndexOfAux v pat k = some i := by
  induction k with
  | zero =>
    have : i = 0 := by omega
    subst this
    simp [lastIndexOfAux, hocc]
  | succ k ih =>
    by_cases hk : occursAt pat v (k + 1)
    · have h1 : k + 1 ≤ i := hmax (k + 1) (by omega) hk
      have : i = k + 1 := by omega
      subst this
      simp [lastIndexOfAux, hk]
    · have hik2 : i ≤ k := by
        by_contra hc
        have hik3 : i = k + 1 := by omega
        exact hk (hik3 ▸ hocc)
      rw [lastIndexOfAux, if_neg hk]
      exact ih (fun j hj ho => hmax j (by omega) ho) hik2

theorem lastIndexOfAux_eq_none {v pat : List Char} (k : Nat)
    (h : ∀ j, j ≤ k → ¬occursAt pat v j) : lastIndexOfAux v pat k = none := by
  induction k with
  | zero => simp [lastIndexOfAux, h 0 (by omega)]
  | succ k ih =>
    rw [lastIndexOfAux, if_neg (h (k + 1) (by omega))]
    exact ih (fun j hj => h j (by omega))

/-! ## C1: commit targets the last occurrence -/

/-- C1.  For every surface value and pending candidate (one that passes the
stale-key guard), `replaceShortcut` recomputes the literal pattern and
locates its last (rightmost) occurrence: if `i` is an occurrence and no
occurrence lies to its right, commit replaces exactly that span with the
resolved final text and puts the caret immediately after it; if the
pattern occurs nowhere, commit returns `none` — the `NoMatchFound` no-op
that leaves the value unchanged (and the source's unconditional
`removePreview()` clears the pending state). -/
theorem replaceShortcut_commit_spec (env : Env) (value : List Char) (st : MatchState)
    (i : Nat)
    (hguard : ¬(lookupSc env st.shortcutKey = none ∧ ¬st.shortcutKey = "/lorem".data ∧
      ¬st.shortcutKey = "/cal".data)) :
    (occursAt (commitPattern value st.shortcutKey st.count) value i →
      (∀ j, j ≤ value.length → occursAt (commitPattern value st.shortcutKey st.count) value j →
        j ≤ i) →
      replaceShortcut env value st = some
        (value.take i ++ resolveFinalText env st ++
          value.drop (i + (commitPattern value st.shortcutKey st.count).length),
         i + (resolveFinalText env st).length)) ∧
    ((∀ j, j ≤ value.length → ¬occursAt (commitPattern value st.shortcutKey st.count) value j) →
      replaceShortcut env value st = none) := by
  constructor
  · intro hocc hmax
    have hlast : lastIndexOf value (commitPattern value st.shortcutKey st.count) = some i :=
      lastIndexOfAux_eq_some value.length hocc (fun j hj ho => hmax j hj ho)
        (occursAt_le_len hocc)
    unfold replaceShortcut
    rw [if_neg hguard]
    simp only [hlast]
  · intro hnone
    have hlast : lastIndexOf value (commitPattern value st.shortcutKey st.count) = none :=
      lastIndexOfAux_eq_none value.length (fun j hj => hnone j hj)
    unfold replaceShortcut
    rw [if_neg hguard]
    simp only [hlast]

/-- C1 witness: a value with two occurrences of `/gm:2` — commit rewrites
the right one and puts the caret after the inserted text; a value without
the pattern — commit is the `NoMatchFound` no-op. -/
theorem replaceShortcut_commit_spec_witness :
    replaceShortcut envGm "a /gm:2 b /gm:2".data ⟨"/gm".data, 2, true, "GM!".data⟩ =
      some ("a /gm:2 b GM!".data, 13) ∧
    replaceShortcut envGm "hello".data ⟨"/gm".data, 2, true, "GM!".data⟩ = none := by
  constructor
  · have h := (replaceShortcut_commit_spec envGm "a /gm:2 b /gm:2".data
      ⟨"/gm".data, 2, true, "GM!".data⟩ 10 (by decide)).1 (by decide) (by decide)
    exact h.trans (by decide)
  · exact (replaceShortcut_commit_spec envGm "hello".data
      ⟨"/gm".data, 2, true, "GM!".data⟩ 0 (by decide)).2 (by decide)

/-! ## C4: the calculator span starts at the first match of the regex -/

theorem occursAt_cons_succ {pat : List Char} {c : Char} {t : List Char} {i : Nat} :
    occursAt pat (c :: t) (i + 1) ↔ occursAt pat t i := by
  unfold occursAt
  have hd : (c :: t).drop (i + 1) = t.drop i := rfl
  rw [hd]
  simp only [List.length_cons]
  constructor
  · intro h; exact ⟨by omega, h.2⟩
  · intro h; exact ⟨by omega, h.2⟩

theorem containsSub_of_occursAt {v pat : List Char} {i : Nat} (h : occursAt pat v i) :
    containsSub v pat = true := by
  unfold containsSub
  rw [List.any_eq_true]
  refine ⟨i, List.mem_range.mpr (by have := occursAt_le_len h; omega), by simpa using h⟩

/-- A take-5 match at the head is an occurrence at index 0. -/
theorem occursAt_zero_of_take {v : List Char} (h : v.take 5 = "/cal:".data) :
    occursAt "/cal:".data v 0 := by
  constructor
  · have : (v.take 5).length = 5 := by rw [h]; rfl
    have h2 : min 5 v.length = 5 := by simpa [List.length_take] using this
    simp
    omega
  · simpa using h

/-- The scan of `/\/cal:(.+)$/` fires at the first index where the
anchored pattern matches. -/
theorem calExpr_eq_of_first : ∀ (i : Nat) (v : List Char), occursAt "/cal:".data v i →
    (∀ j, j < i → ¬occursAt "/cal:".data v j) → ¬v.drop (i + 5) = [] →
    (v.drop (i + 5)).all (fun c => !isLineTermCh c) = true →
    calExpr v = some (v.drop (i + 5)) := by
  intro i
  induction i with
  | zero =>
    intro v hocc _ hne hterm
    cases v with
    | nil => exact absurd hocc.1 (by simp)
    | cons c t =>
      rw [calExpr]
      rw [if_pos ⟨by simpa using hocc.2, hne, hterm⟩]
  | succ i ih =>
    intro v hocc hfirst hne hterm
    cases v with
    | nil => exact absurd hocc.1 (by simp)
    | cons c t =>
      have h0 : ¬occursAt "/cal:".data (c :: t) 0 := hfirst 0 (by omega)
      rw [calExpr]
      rw [if_neg (fun hg => h0 (occursAt_zero_of_take hg.1))]
      have hdrop : (c :: t).drop (i + 1 + 5) = t.drop (i + 5) := rfl
      rw [hdrop] at hne hterm ⊢
      exact ih t (occursAt_cons_succ.mp hocc)
        (fun j hj hoj => hfirst (j + 1) (by omega) (occursAt_cons_succ.mpr hoj))
        hne hterm

/-- Taking `lastIndexOf` of the suffix starting at `i` gives `i` itself: the suffix
runs to end-of-string, so no occurrence can start later. -/
theorem lastIndexOf_suffix {v : List Char} {i : Nat} (h : i < v.length) :
    lastIndexOf v (v.drop i) = some i := by
  have hocc : occursAt (v.drop i) v i := by
    constructor
    · simp; omega
    · simp [List.take_length]
  refine lastIndexOfAux_eq_some v.length hocc ?_ (by omega)
  intro j _ hj
  have := hj.1
  simp [List.length_drop] at this
  omega

/-- An occurrence of `/cal:` at `i` splits `v.drop i` into the marker and
the expression tail. -/
theorem drop_cal_decomp {v : List Char} {i : Nat} (h : occursAt "/cal:".data v i) :
    v.drop i = "/cal:".data ++ v.drop (i + 5) := by
  have h1 : v.drop i = (v.drop i).take 5 ++ (v.drop i).drop 5 := by
    rw [List.take_append_drop]
  have h2 : (v.drop i).take 5 = "/cal:".data := by simpa using h.2
  have h3 : (v.drop i).drop 5 = v.drop (i + 5) := by
    rw [List.drop_drop]
  rw [h1, h2, h3]

/-- C4 counterexample.  In `"/cal:1/cal:2"` the substring `/cal:` occurs
twice (last occurrence at index 6, so the portion after the last
occurrence is `"2"`), yet the expression the matcher hands to the
evaluator is `"1/cal:2"` — the portion after the FIRST occurrence — and
the span commit replaces is the whole string starting at index 0, not at
index 6; the end-to-end match evaluates `1/cal:2` (sanitized `1/2`) to
`0.5` instead of `2`. -/
theorem calExpr_last_occurrence_cex :
    containsSub "/cal:1/cal:2".data "/cal:".data = true ∧
    lastIndexOf "/cal:1/cal:2".data "/cal:".data = some 6 ∧
    "/cal:1/cal:2".data.drop (6 + 5) = "2".data ∧
    calExpr "/cal:1/cal:2".data = some "1/cal:2".data ∧
    ¬calExpr "/cal:1/cal:2".data = some "2".data ∧
    commitPattern "/cal:1/cal:2".data "/cal".data 0 = "/cal:1/cal:2".data ∧
    lastIndexOf "/cal:1/cal:2".data "/cal:1/cal:2".data = some 0 ∧
    handleInputMatch envEmpty "/cal:1/cal:2".data =
      some (⟨"/cal".data, 0, false, "0.5".data⟩, "1/cal:2 = 0.5".data) := by decide

/-- C4 amended.  For every value, the expression handed to the evaluator
at match time and the literal span replaced at commit time start at the
FIRST index where the calculator pattern `/\/cal:(.+)$/` matches (for a
terminator-free value with more than one `/cal:`, the first occurrence),
not at the last occurrence: the expression is the portion after that
first occurrence up to end-of-string, the commit pattern is the whole
suffix from it, and `lastIndexOf` of that suffix is that same index. -/
theorem calExpr_first_occurrence (v : List Char) (i : Nat)
    (hocc : occursAt "/cal:".data v i)
    (hfirst : ∀ j, j < i → ¬occursAt "/cal:".data v j)
    (hne : ¬v.drop (i + 5) = [])
    (hterm : (v.drop (i + 5)).all (fun c => !isLineTermCh c) = true) :
    calExpr v = some (v.drop (i + 5)) ∧
    commitPattern v "/cal".data 0 = v.drop i ∧
    lastIndexOf v (v.drop i) = some i ∧
    ∀ env : Env, handleInputMatch env v = some (calCandidate (v.drop (i + 5))) := by
  have hcal : calExpr v = some (v.drop (i + 5)) :=
    calExpr_eq_of_first i v hocc hfirst hne hterm
  have h5 : ("/cal:".data).length = 5 := rfl
  refine ⟨hcal, ?_, ?_, ?_⟩
  · unfold commitPattern
    rw [if_pos rfl, hcal]
    exact (drop_cal_decomp hocc).symm
  · exact lastIndexOf_suffix (by have := hocc.1; omega)
  · intro env
    unfold handleInputMatch
    rw [if_pos (containsSub_of_occursAt hocc), hcal]
    simp only [List.isEmpty_iff]
    rw [if_neg hne]

/-- C4 amended, witness: in `"x/cal:1/cal:2"` the pattern first matches at
index 1; the expression is `"1/cal:2"` and the commit span is the suffix
`"/cal:1/cal:2"` located at index 1. -/
theorem calExpr_first_occurrence_witness :
    calExpr "x/cal:1/cal:2".data = some "1/cal:2".data ∧
    commitPattern "x/cal:1/cal:2".data "/cal".data 0 = "/cal:1/cal:2".data ∧
    lastIndexOf "x/cal:1/cal:2".data "/cal:1/cal:2".data = some 1 := by
  have h := calExpr_first_occurrence "x/cal:1/cal:2".data 1 (by decide) (by decide)
    (by decide) (by decide)
  refine ⟨h.1.trans (by decide), h.2.1.trans (by decide), ?_⟩
  have hd : "x/cal:1/cal:2".data.drop 1 = "/cal:1/cal:2".data := by decide
  rw [← hd]
  exact h.2.2.1

/-! ## C9: calculator priority -/

theorem calExpr_some_ne_nil : ∀ {v e : List Char}, calExpr v = some e → ¬e = [] := by
  intro v
  induction v with
  | nil => intro e h; exact absurd h (by simp [calExpr])
  | cons c t ih =>
    intro e h
    rw [calExpr] at h
    by_cases hg : (c :: t).take 5 = "/cal:".data ∧ ¬(c :: t).drop 5 = [] ∧
        ((c :: t).drop 5).all (fun x => !isLineTermCh x) = true
    · rw [if_pos hg] at h
      have : (c :: t).drop 5 = e := by injection h
      exact this ▸ hg.2.1
    · rw [if_neg hg] at h
      exact ih h

theorem occursAt_of_containsSub {v pat : List Char} (h : containsSub v pat = true) :
    ∃ i, occursAt pat v i := by
  unfold containsSub at h
  rw [List.any_eq_true] at h
  obtain ⟨i, _, hi⟩ := h
  exact ⟨i, of_decide_eq_true hi⟩

theorem calExpr_some_contains : ∀ {v e : List Char}, calExpr v = some e →
    containsSub v "/cal:".data = true := by
  intro v
  induction v with
  | nil => intro e h; exact absurd h (by simp [calExpr])
  | cons c t ih =>
    intro e h
    rw [calExpr] at h
    by_cases hg : (c :: t).take 5 = "/cal:".data ∧ ¬(c :: t).drop 5 = [] ∧
        ((c :: t).drop 5).all (fun x => !isLineTermCh x) = true
    · exact containsSub_of_occursAt (occursAt_zero_of_take hg.1)
    · rw [if_neg hg] at h
      obtain ⟨i, hi⟩ := occursAt_of_containsSub (ih h)
      exact containsSub_of_occursAt (occursAt_cons_succ.mpr hi)

/-- C9 counterexample.  The value `"/cal:\n/lorem:5"` contains the literal
substring `/cal:`, yet the matcher produces a candidate from the
lower-priority count-bearing pattern: the calculator regex
`/\/cal:(.+)$/` fails (the line terminator after `/cal:` is not matched
by `.`), the source never `return`s in that case, and control falls
through to the `/lorem:5` suffix. -/
theorem cal_fallthrough_cex :
    containsSub "/cal:\n/lorem:5".data "/cal:".data = true ∧
    handleInputMatch envEmpty "/cal:\n/lorem:5".data =
      some (⟨"/lorem".data, 5, true, "Lorem ipsum dolor sit amet,".data⟩,
        "Lorem ipsum dolor sit amet,".data) ∧
    ¬"/lorem".data = "/cal".data := by decide

/-- C9 amended.  Whenever the calculator pattern `/\/cal:(.+)$/` actually
matches (some `/cal:` is followed by a nonempty, terminator-free tail),
the matcher yields the calculator candidate and never a lower-priority
one: its key is `/cal`, and a failed evaluation (`NotAnExpression`, e.g.
`20*`) still yields an in-progress calculator candidate (empty
`fullText`, typing-indicator preview) rather than falling through.  When
the pattern fails to match — nothing after `/cal:`, or a line terminator
in its tail — the matcher may fall through to the lower-priority
patterns (see the counterexample). -/
theorem cal_priority_amended (env : Env) (v e : List Char) (h : calExpr v = some e) :
    handleInputMatch env v = some (calCandidate e) ∧
    (calCandidate e).1.shortcutKey = "/cal".data ∧
    (calculate e = CalcResult.notExpr → (calCandidate e).1.fullText = [] ∧
      (calCandidate e).2 = "🔢 ".data ++ e ++ " = ...".data) := by
  have hne := calExpr_some_ne_nil h
  refine ⟨?_, ?_, ?_⟩
  · unfold handleInputMatch
    rw [if_pos (calExpr_some_contains h), h]
    simp only [List.isEmpty_iff]
    rw [if_neg hne]
  · unfold calCandidate
    cases hc : calculate e <;> rfl
  · intro hnx
    unfold calCandidate
    rw [hnx]
    exact ⟨rfl, rfl⟩

/-- C9 amended, witness: `"/cal:20*"` — the malformed trailing expression
`20*` yields the in-progress calculator candidate. -/
theorem cal_priority_amended_witness :
    handleInputMatch envEmpty "/cal:20*".data =
      some (⟨"/cal".data, 0, false, []⟩, "🔢 20* = ...".data) := by
  have h := cal_priority_amended envEmpty "/cal:20*".data "20*".data (by decide)
  exact h.1.trans (by decide)

/-! ## C5: a matched count pattern with an unknown key is terminal -/

/-- C5.  If the value does not contain `/cal:`, its suffix matches the
count pattern `/\/([a-zA-Z0-9]+):(\d+)$/`, and the trigger key is neither
the reserved `/lorem` nor present in the store, then the matcher produces
no candidate at all: the count-less pattern (priority 3) is behind an
`else if` and is never consulted. -/
theorem unknown_count_trigger_terminal (env : Env) (v key : List Char) (count : Nat)
    (hcal : containsSub v "/cal:".data = false)
    (hm : matchWithCount v = some (key, count))
    (hlorem : ¬key = "/lorem".data)
    (hstore : lookupSc env key = none) :
    handleInputMatch env v = none := by
  unfold handleInputMatch
  rw [if_neg (by rw [hcal]; simp)]
  unfold matchLower
  rw [hm]
  simp only
  rw [if_neg hlorem, hstore]

/-- C5 witness: `"/abc:3"` in an empty store produces nothing. -/
theorem unknown_count_trigger_terminal_witness :
    handleInputMatch envEmpty "/abc:3".data = none :=
  unknown_count_trigger_terminal envEmpty "/abc:3".data "/abc".data 3 (by decide)
    (by decide) (by decide) (by decide)

/-! ## C7: the lorem generator is a deterministic round robin -/

theorem wordsOfAux_word : ∀ (w s acc : List Char),
    w.all (fun c => !isJsWsCh c) = true →
    wordsOfAux (w ++ s) acc = wordsOfAux s (w.reverse ++ acc) := by
  intro w
  induction w with
  | nil => intro s acc _; simp
  | cons c w ih =>
    intro s acc hall
    simp only [List.all_cons, Bool.and_eq_true, Bool.not_eq_true'] at hall
    rw [List.cons_append, wordsOfAux]
    rw [hall.1]
    simp only [Bool.false_eq_true, if_false]
    rw [ih s (c :: acc) (by simpa using hall.2)]
    simp [List.append_assoc]

theorem joinSpace_cons₂ (w w2 : List Char) (ws : List (List Char)) :
    joinSpace (w :: w2 :: ws) = w ++ ' ' :: joinSpace (w2 :: ws) := rfl

theorem wordsOf_joinSpace : ∀ ws : List (List Char),
    (∀ w ∈ ws, ¬w = [] ∧ w.all (fun c => !isJsWsCh c) = true) →
    wordsOf (joinSpace ws) = ws := by
  intro ws
  induction ws with
  | nil => intro _; rfl
  | cons w ws ih =>
    intro hall
    obtain ⟨hne, hnb⟩ := hall w (by simp)
    cases ws with
    | nil =>
      show wordsOf (joinSpace [w]) = [w]
      have hj : joinSpace [w] = w := rfl
      unfold wordsOf
      rw [hj, ← List.append_nil w, wordsOfAux_word w [] [] hnb, wordsOfAux]
      simp [hne]
    | cons w2 ws2 =>
      have hrest : ∀ x ∈ w2 :: ws2, ¬x = [] ∧ x.all (fun c => !isJsWsCh c) = true :=
        fun x hx => hall x (by simp [hx])
      unfold wordsOf
      rw [joinSpace_cons₂, wordsOfAux_word w _ [] hnb, wordsOfAux]
      have hsp : isJsWsCh ' ' = true := rfl
      rw [hsp]
      simp only [if_true]
      have hacc : (w.reverse ++ []).isEmpty = false := by
        simp [List.isEmpty_iff, hne]
      rw [hacc]
      simp only [Bool.false_eq_true, if_false]
      have := ih hrest
      unfold wordsOf at this
      rw [this]
      simp

theorem growWords_spec : ∀ (fuel : Nat) (ws : List (List Char)) (target : Nat)
    (acc : List (List Char)), ¬ws = [] → target ≤ acc.length + fuel * ws.length →
    ∃ m, growWords ws target fuel acc = acc ++ (List.replicate m ws).flatten ∧
      target ≤ (growWords ws target fuel acc).length := by
  intro fuel
  induction fuel with
  | zero =>
    intro ws target acc hne hb
    refine ⟨0, by simp [growWords], ?_⟩
    simp only [growWords, List.length_nil]
    omega
  | succ fuel ih =>
    intro ws target acc hne hb
    rw [growWords]
    by_cases hlt : acc.length < target
    · rw [if_pos hlt]
      have hb2 : target ≤ (acc ++ ws).length + fuel * ws.length := by
        rw [List.length_append]
        have hsm : (fuel + 1) * ws.length = fuel * ws.length + ws.length := by
          rw [Nat.succ_mul]
        omega
      obtain ⟨m, hm, hlen⟩ := ih ws target (acc ++ ws) hne hb2
      refine ⟨m + 1, ?_, hlen⟩
      rw [hm, List.replicate_succ, List.flatten_cons, List.append_assoc]
    · rw [if_neg hlt]
      exact ⟨0, by simp, by omega⟩

theorem flatten_replicate_length : ∀ (m : Nat) (ws : List (List Char)),
    (List.replicate m ws).flatten.length = m * ws.length := by
  intro m
  induction m with
  | zero => intro ws; simp
  | succ m ih =>
    intro ws
    rw [List.replicate_succ, List.flatten_cons, List.length_append, ih, Nat.succ_mul]
    omega

theorem flatten_replicate_getElem? : ∀ (m : Nat) (ws : List (List Char)) (i : Nat),
    ¬ws = [] → i < m * ws.length →
    (List.replicate m ws).flatten[i]? = ws[i % ws.length]? := by
  intro m
  induction m with
  | zero => intro ws i _ h; simp at h
  | succ m ih =>
    intro ws i hne hi
    rw [List.replicate_succ, List.flatten_cons]
    by_cases h : i < ws.length
    · rw [List.getElem?_append, if_pos h, Nat.mod_eq_of_lt h]
    · push_neg at h
      rw [List.getElem?_append, if_neg (by omega)]
      have hlt : i - ws.length < m * ws.length := by
        have hsm : (m + 1) * ws.length = m * ws.length + ws.length := by rw [Nat.succ_mul]
        omega
      rw [ih ws (i - ws.length) hne hlt]
      congr 1
      conv_rhs => rw [show i = ws.length + (i - ws.length) by omega]
      rw [Nat.add_mod_left]

/-- The word list of `generateLoremIpsum n` (`n ≤ 1000`) is the base word
list read cyclically and truncated at `n`. -/
theorem lorem_generate_words : ∀ n : Nat, n ≤ 1000 →
    wordsOf (generateLoremIpsum n) =
      (List.range n).map (fun i => loremWords.getD (i % loremWords.length) []) := by
  intro n hn
  by_cases h0 : n = 0
  · subst h0; rfl
  · unfold generateLoremIpsum
    rw [if_neg h0]
    have hmin : min n 1000 = n := by omega
    rw [hmin]
    have hLne : ¬loremWords = [] := by decide
    have hlen : loremWords.length = 69 := by decide
    obtain ⟨m, hm, hglen⟩ := growWords_spec n loremWords n [] hLne
      (by rw [hlen]; omega)
    rw [List.nil_append] at hm
    have hword : ∀ w ∈ (growWords loremWords n n []).take n,
        ¬w = [] ∧ w.all (fun c => !isJsWsCh c) = true := by
      intro w hw
      have hw2 := List.mem_of_mem_take hw
      rw [hm] at hw2
      obtain ⟨l, hl, hwl⟩ := List.mem_flatten.mp hw2
      have hleq : l = loremWords := List.eq_of_mem_replicate hl
      subst hleq
      have hprops : loremWords.all (fun w => (!w.isEmpty) && w.all (fun c => !isJsWsCh c))
          = true := by decide
      rw [List.all_eq_true] at hprops
      have hp := hprops w hwl
      simp only [Bool.and_eq_true, Bool.not_eq_true'] at hp
      refine ⟨fun hh => ?_, hp.2⟩
      rw [hh] at hp
      simp at hp
    rw [wordsOf_joinSpace _ hword]
    have hmlen : n ≤ m * loremWords.length := by
      rw [hm, flatten_replicate_length] at hglen
      exact hglen
    apply List.ext_getElem?
    intro i
    by_cases hi : i < n
    · rw [List.getElem?_take_of_lt hi]
      rw [hm, flatten_replicate_getElem? m loremWords i hLne (by omega)]
      have himod : i % loremWords.length < loremWords.length := by
        rw [hlen]; omega
      rw [List.getElem?_eq_getElem himod, List.getElem?_map, List.getElem?_range hi]
      have hgd : loremWords.getD (i % loremWords.length) [] =
          loremWords[i % loremWords.length] := by
        rw [List.getD_eq_getElem?_getD, List.getElem?_eq_getElem himod]
        rfl
      simp [hgd]
      rw [List.getElem?_eq_getElem himod]
      rfl
    · push_neg at hi
      rw [List.getElem?_eq_none, List.getElem?_eq_none]
      · simp only [List.length_map, List.length_range]; omega
      · rw [List.length_take]; omega

/-- C7.  For every `0 < count ≤ 1000` the filler generator returns exactly
`count` space-separated words, word `i` being base word `i mod 69`
(round robin through `loremWords`); in particular `generate(5)` is
literally the first five words of the base paragraph. -/
theorem lorem_round_robin :
    (∀ count : Nat, 0 < count → count ≤ 1000 →
      wordsOf (generateLoremIpsum count) =
        (List.range count).map (fun i => loremWords.getD (i % loremWords.length) [])) ∧
    generateLoremIpsum 5 = "Lorem ipsum dolor sit amet,".data :=
  ⟨fun c _ hc => lorem_generate_words c hc, by decide⟩

/-- C7 witness at count 7: the seven words, cyclic order, evaluated. -/
theorem lorem_round_robin_witness :
    wordsOf (generateLoremIpsum 7) =
      ["Lorem".data, "ipsum".data, "dolor".data, "sit".data, "amet,".data,
        "consectetur".data, "adipiscing".data] := by
  have h := lorem_round_robin.1 7 (by decide) (by decide)
  exact h.trans (by decide)

/-! ## C6: the 1000-word cap -/

/-- C6.  For a value whose suffix matches `/lorem:<digits>` (and which
does not contain `/cal:`, so the calculator step does not intervene; the
reserved key itself absent from the store as usual): a count above 1000
produces the explicit maximum-exceeded error candidate — empty
`fullText`, the inline warning as preview, and a commit-time final text
that is empty, so no generated or truncated text can be committed; a
count at most 1000 produces a candidate carrying exactly `count`
generated words. -/
theorem lorem_limit_candidate (env : Env) (v : List Char) (count : Nat)
    (hcal : containsSub v "/cal:".data = false)
    (hm : matchWithCount v = some ("/lorem".data, count))
    (hstore : lookupSc env "/lorem".data = none) :
    (1000 < count →
      handleInputMatch env v = some (⟨"/lorem".data, count, true, []⟩, loremLimitMsg count) ∧
      resolveFinalText env ⟨"/lorem".data, count, true, []⟩ = []) ∧
    (count ≤ 1000 →
      handleInputMatch env v =
        some (⟨"/lorem".data, count, true, generateLoremIpsum count⟩,
          generateLoremIpsum count) ∧
      (wordsOf (generateLoremIpsum count)).length = count) := by
  have hmain : handleInputMatch env v = matchLower env v := by
    unfold handleInputMatch
    rw [if_neg (by rw [hcal]; simp)]
  constructor
  · intro hgt
    constructor
    · rw [hmain]
      unfold matchLower
      rw [hm]
      simp only
      rw [if_pos trivial, if_pos hgt]
    · unfold resolveFinalText
      simp only [List.isEmpty_nil, if_true]
      unfold generateText
      rw [hstore]
  · intro hle
    constructor
    · rw [hmain]
      unfold matchLower
      rw [hm]
      simp only
      rw [if_pos trivial, if_neg (by omega)]
    · rw [lorem_generate_words count hle]
      simp

/-- C6 witness: `/lorem:1500` yields the error candidate with empty
final text; `/lorem:5` yields a five-word candidate. -/
theorem lorem_limit_candidate_witness :
    (handleInputMatch envEmpty "/lorem:1500".data =
        some (⟨"/lorem".data, 1500, true, []⟩, loremLimitMsg 1500) ∧
      resolveFinalText envEmpty ⟨"/lorem".data, 1500, true, []⟩ = []) ∧
    (handleInputMatch envEmpty "/lorem:5".data =
        some (⟨"/lorem".data, 5, true, generateLoremIpsum 5⟩, generateLoremIpsum 5) ∧
      (wordsOf (generateLoremIpsum 5)).length = 5) :=
  ⟨(lorem_limit_candidate envEmpty "/lorem:1500".data 1500 (by decide) (by decide)
      (by decide)).1 (by decide),
   (lorem_limit_candidate envEmpty "/lorem:5".data 5 (by decide) (by decide)
      (by decide)).2 (by decide)⟩

/-! ## C2: reference vectors and post-processing -/

/-- C2.  The evaluator satisfies the reference vectors — `2+2` is the
integer-valued 4 (denominator 1), `7/2` is 3.5, `(2+3)*4` is 20, `-3+5`
is 2, and `5/0` is the distinct arithmetic-error outcome rendered as the
literal text `Error` — and in general every finite evaluation result is
returned unchanged when integral and rounded to 4 decimal places
otherwise. -/
theorem calculate_reference_vectors :
    (calculate "2+2".data = CalcResult.num ⟨4, 1⟩ ∧ (⟨4, 1⟩ : JRat).den = 1) ∧
    calculate "7/2".data = CalcResult.num ⟨7, 2⟩ ∧
    calculate "(2+3)*4".data = CalcResult.num ⟨20, 1⟩ ∧
    calculate "-3+5".data = CalcResult.num ⟨2, 1⟩ ∧
    (calculate "5/0".data = CalcResult.errorRes ∧
      renderCalc CalcResult.errorRes = "Error".data) ∧
    (∀ (e : List Char) (q : JRat), evalRaw e = some (JVal.num q) →
      calculate e = CalcResult.num (if q.den = 1 then q else round4 q)) := by
  refine ⟨⟨by decide, rfl⟩, by decide, by decide, by decide, ⟨by decide, by decide⟩, ?_⟩
  intro e q h
  unfold calculate
  rw [h]

/-- C2 witness: a non-integral raw result (`0.12345 + 0`, exactly
2469/20000) goes through the rounding branch and comes out as
0.1235 = 247/2000 (4 decimal places, ties upward). -/
theorem calculate_reference_vectors_witness :
    calculate "0.12345+0".data = CalcResult.num ⟨247, 2000⟩ :=
  (calculate_reference_vectors.2.2.2.2.2 "0.12345+0".data ⟨2469, 20000⟩ (by decide)).trans
    (by decide)

/-! ## C8: splitEmojis is a per-scalar split, not grapheme clusters -/

/-- C8, evaluating the code at the failing input.  The skin-tone-modified
thumbs up U+1F44D U+1F3FD — one grapheme cluster — is split by
`splitEmojis` into TWO elements (base scalar and modifier scalar), and
the ZWJ family sequence U+1F468 ZWJ U+1F469 ZWJ U+1F467 — one cluster —
comes out as three elements with the joiners dropped: the per-code-point
character class `[\p{Emoji_Presentation}\p{Emoji}\p{Emoji_Modifier}]`
matches scalar by scalar and can never keep a cluster together, contrary
to the function's own comment. -/
theorem splitEmojis_scalar_split :
    splitEmojis emojiPropSample [Char.ofNat 0x1F44D, Char.ofNat 0x1F3FD] =
      [[Char.ofNat 0x1F44D], [Char.ofNat 0x1F3FD]] ∧
    ¬(splitEmojis emojiPropSample [Char.ofNat 0x1F44D, Char.ofNat 0x1F3FD]).length = 1 ∧
    splitEmojis emojiPropSample
      [Char.ofNat 0x1F468, Char.ofNat 0x200D, Char.ofNat 0x1F469, Char.ofNat 0x200D,
        Char.ofNat 0x1F467] =
      [[Char.ofNat 0x1F468], [Char.ofNat 0x1F469], [Char.ofNat 0x1F467]] := by decide

/-! ## Parser fuel: monotonicity and sufficiency -/

theorem parseStep_zero (tag : PFn) (ts : List (List Char)) :
    parseStep 0 tag ts = none := rfl

theorem parseStep_expr (f : Nat) (ts : List (List Char)) :
    parseStep (f + 1) .expr ts =
      (parseStep f .term ts).bind fun r => parseStep f (.exprLoop r.1 r.2.2) r.2.1 := rfl

theorem parseStep_term (f : Nat) (ts : List (List Char)) :
    parseStep (f + 1) .term ts =
      (parseStep f .factor ts).bind fun r => parseStep f (.termLoop r.1 r.2.2) r.2.1 := rfl

theorem parseStep_exprLoop_nil (f : Nat) (left : JVal) (ov : Bool) :
    parseStep (f + 1) (.exprLoop left ov) [] = some (left, [], ov) := rfl

theorem parseStep_exprLoop_cons (f : Nat) (left : JVal) (ov : Bool) (t : List Char)
    (rest : List (List Char)) :
    parseStep (f + 1) (.exprLoop left ov) (t :: rest) =
      (if t = ['+'] then
        (parseStep f .term rest).bind fun r =>
          parseStep f (.exprLoop (jadd left r.1) (ov || r.2.2)) r.2.1
      else if t = ['-'] then
        (parseStep f .term rest).bind fun r =>
          parseStep f (.exprLoop (jsub left r.1) (ov || r.2.2)) r.2.1
      else some (left, t :: rest, ov)) := rfl

theorem parseStep_termLoop_nil (f : Nat) (left : JVal) (ov : Bool) :
    parseStep (f + 1) (.termLoop left ov) [] = some (left, [], ov) := rfl

theorem parseStep_termLoop_cons (f : Nat) (left : JVal) (ov : Bool) (t : List Char)
    (rest : List (List Char)) :
    parseStep (f + 1) (.termLoop left ov) (t :: rest) =
      (if t = ['*'] then
        (parseStep f .factor rest).bind fun r =>
          parseStep f (.termLoop (jmul left r.1) (ov || r.2.2)) r.2.1
      else if t = ['/'] then
        (parseStep f .factor rest).bind fun r =>
          parseStep f (.termLoop (jdivJS left r.1) (ov || r.2.2)) r.2.1
      else if t = ['%'] then
        (parseStep f .factor rest).bind fun r =>
          parseStep f (.termLoop (jmodJS left r.1) (ov || r.2.2)) r.2.1
      else some (left, t :: rest, ov)) := rfl

theorem parseStep_factor_nil (f : Nat) :
    parseStep (f + 1) .factor [] = some (.nan, [], true) := rfl

theorem parseStep_factor_cons (f : Nat) (t : List Char) (rest : List (List Char)) :
    parseStep (f + 1) .factor (t :: rest) =
      (if t = ['('] then
        (parseStep f .expr rest).bind fun r =>
          match r.2.1 with
          | u :: us => if u = [')'] then some (r.1, us, r.2.2) else some (r.1, u :: us, r.2.2)
          | [] => some (r.1, [], r.2.2)
      else if t = ['-'] then
        (parseStep f .factor rest).bind fun r => some (jneg r.1, r.2.1, r.2.2)
      else some (jsParseFloat t, rest, false)) := rfl

/-- A successful parse is stable under extra fuel. -/
theorem parseStep_mono : ∀ (f f' : Nat) (tag : PFn) (ts : List (List Char))
    (r : JVal × List (List Char) × Bool),
    parseStep f tag ts = some r → f ≤ f' → parseStep f' tag ts = some r := by
  intro f
  induction f with
  | zero =>
    intro f' tag ts r h _
    simp [parseStep] at h
  | succ f ih =>
    intro f' tag ts r h hle
    obtain ⟨g, rfl⟩ : ∃ g, f' = g + 1 := ⟨f' - 1, by omega⟩
    have hg : f ≤ g := by omega
    cases tag with
    | expr =>
      rw [parseStep_expr] at h ⊢
      cases h1 : parseStep f .term ts with
      | none => rw [h1] at h; simp at h
      | some a =>
        rw [h1] at h
        simp only [Option.some_bind] at h
        rw [ih g .term ts a h1 hg]
        simp only [Option.some_bind]
        exact ih g _ _ r h hg
    | term =>
      rw [parseStep_term] at h ⊢
      cases h1 : parseStep f .factor ts with
      | none => rw [h1] at h; simp at h
      | some a =>
        rw [h1] at h
        simp only [Option.some_bind] at h
        rw [ih g .factor ts a h1 hg]
        simp only [Option.some_bind]
        exact ih g _ _ r h hg
    | exprLoop left ov =>
      cases ts with
      | nil => rw [parseStep_exprLoop_nil] at h ⊢; exact h
      | cons t rest =>
        rw [parseStep_exprLoop_cons] at h ⊢
        by_cases ht : t = ['+']
        · rw [if_pos ht] at h ⊢
          cases h1 : parseStep f .term rest with
          | none => rw [h1] at h; simp at h
          | some a =>
            rw [h1] at h
            simp only [Option.some_bind] at h
            rw [ih g .term rest a h1 hg]
            simp only [Option.some_bind]
            exact ih g _ _ r h hg
        · rw [if_neg ht] at h ⊢
          by_cases ht2 : t = ['-']
          · rw [if_pos ht2] at h ⊢
            cases h1 : parseStep f .term rest with
            | none => rw [h1] at h; simp at h
            | some a =>
              rw [h1] at h
              simp only [Option.some_bind] at h
              rw [ih g .term rest a h1 hg]
              simp only [Option.some_bind]
              exact ih g _ _ r h hg
          · rw [if_neg ht2] at h ⊢
            exact h
    | termLoop left ov =>
      cases ts with
      | nil => rw [parseStep_termLoop_nil] at h ⊢; exact h
      | cons t rest =>
        rw [parseStep_termLoop_cons] at h ⊢
        by_cases ht : t = ['*']
        · rw [if_pos ht] at h ⊢
          cases h1 : parseStep f .factor rest with
          | none => rw [h1] at h; simp at h
          | some a =>
            rw [h1] at h
            simp only [Option.some_bind] at h
            rw [ih g .factor rest a h1 hg]
            simp only [Option.some_bind]
            exact ih g _ _ r h hg
        · rw [if_neg ht] at h ⊢
          by_cases ht2 : t = ['/']
          · rw [if_pos ht2] at h ⊢
            cases h1 : parseStep f .factor rest with
            | none => rw [h1] at h; simp at h
            | some a =>
              rw [h1] at h
              simp only [Option.some_bind] at h
              rw [ih g .factor rest a h1 hg]
              simp only [Option.some_bind]
              exact ih g _ _ r h hg
          · rw [if_neg ht2] at h ⊢
            by_cases ht3 : t = ['%']
            · rw [if_pos ht3] at h ⊢
              cases h1 : parseStep f .factor rest with
              | none => rw [h1] at h; simp at h
              | some a =>
                rw [h1] at h
                simp only [Option.some_bind] at h
                rw [ih g .factor rest a h1 hg]
                simp only [Option.some_bind]
                exact ih g _ _ r h hg
            · rw [if_neg ht3] at h ⊢
              exact h
    | factor =>
      cases ts with
      | nil => rw [parseStep_factor_nil] at h ⊢; exact h
      | cons t rest =>
        rw [parseStep_factor_cons] at h ⊢
        by_cases ht : t = ['(']
        · rw [if_pos ht] at h ⊢
          cases h1 : parseStep f .expr rest with
          | none => rw [h1] at h; simp at h
          | some a =>
            rw [h1] at h
            simp only [Option.some_bind] at h
            rw [ih g .expr rest a h1 hg]
            simp only [Option.some_bind]
            exact h
        · rw [if_neg ht] at h ⊢
          by_cases ht2 : t = ['-']
          · rw [if_pos ht2] at h ⊢
            cases h1 : parseStep f .factor rest with
            | none => rw [h1] at h; simp at h
            | some a =>
              rw [h1] at h
              simp only [Option.some_bind] at h
              rw [ih g .factor rest a h1 hg]
              simp only [Option.some_bind]
              exact h
          · rw [if_neg ht2] at h ⊢
            exact h

/-- Fuel sufficiency: with fuel above `5·|ts| + rank`, the parser always
returns a result, and never grows the token list — in particular the
fuel `parseFuel` used by `calculate` always suffices, so the `none`
branch of `evalRaw` is unreachable. -/
theorem parseStep_total : ∀ (f : Nat) (tag : PFn) (ts : List (List Char)),
    5 * ts.length + pfnRank tag < f →
    ∃ v rem ov, parseStep f tag ts = some (v, rem, ov) ∧ rem.length ≤ ts.length := by
  intro f
  induction f with
  | zero => intro tag ts h; omega
  | succ f ih =>
    intro tag ts h
    cases tag with
    | expr =>
      simp only [pfnRank] at h
      obtain ⟨v1, rem1, ov1, hp1, hl1⟩ := ih .term ts (by simp only [pfnRank]; omega)
      obtain ⟨v2, rem2, ov2, hp2, hl2⟩ := ih (.exprLoop v1 ov1) rem1
        (by simp only [pfnRank]; omega)
      refine ⟨v2, rem2, ov2, ?_, by omega⟩
      rw [parseStep_expr, hp1]
      simpa using hp2
    | term =>
      simp only [pfnRank] at h
      obtain ⟨v1, rem1, ov1, hp1, hl1⟩ := ih .factor ts (by simp only [pfnRank]; omega)
      obtain ⟨v2, rem2, ov2, hp2, hl2⟩ := ih (.termLoop v1 ov1) rem1
        (by simp only [pfnRank]; omega)
      refine ⟨v2, rem2, ov2, ?_, by omega⟩
      rw [parseStep_term, hp1]
      simpa using hp2
    | exprLoop left ov =>
      cases ts with
      | nil => exact ⟨left, [], ov, parseStep_exprLoop_nil f left ov, by simp⟩
      | cons t rest =>
        simp only [pfnRank, List.length_cons] at h
        by_cases ht : t = ['+']
        · obtain ⟨v1, rem1, ov1, hp1, hl1⟩ := ih .term rest (by simp only [pfnRank]; omega)
          obtain ⟨v2, rem2, ov2, hp2, hl2⟩ := ih (.exprLoop (jadd left v1) (ov || ov1)) rem1
            (by simp only [pfnRank]; omega)
          refine ⟨v2, rem2, ov2, ?_, by simp only [List.length_cons]; omega⟩
          rw [parseStep_exprLoop_cons, if_pos ht, hp1]
          simpa using hp2
        · by_cases ht2 : t = ['-']
          · obtain ⟨v1, rem1, ov1, hp1, hl1⟩ := ih .term rest (by simp only [pfnRank]; omega)
            obtain ⟨v2, rem2, ov2, hp2, hl2⟩ := ih (.exprLoop (jsub left v1) (ov || ov1)) rem1
              (by simp only [pfnRank]; omega)
            refine ⟨v2, rem2, ov2, ?_, by simp only [List.length_cons]; omega⟩
            rw [parseStep_exprLoop_cons, if_neg ht, if_pos ht2, hp1]
            simpa using hp2
          · exact ⟨left, t :: rest, ov,
              by rw [parseStep_exprLoop_cons, if_neg ht, if_neg ht2], by simp⟩
    | termLoop left ov =>
      cases ts with
      | nil => exact ⟨left, [], ov, parseStep_termLoop_nil f left ov, by simp⟩
      | cons t rest =>
        simp only [pfnRank, List.length_cons] at h
        by_cases ht : t = ['*']
        · obtain ⟨v1, rem1, ov1, hp1, hl1⟩ := ih .factor rest (by simp only [pfnRank]; omega)
          obtain ⟨v2, rem2, ov2, hp2, hl2⟩ := ih (.termLoop (jmul left v1) (ov || ov1)) rem1
            (by simp only [pfnRank]; omega)
          refine ⟨v2, rem2, ov2, ?_, by simp only [List.length_cons]; omega⟩
          rw [parseStep_termLoop_cons, if_pos ht, hp1]
          simpa using hp2
        · by_cases ht2 : t = ['/']
          · obtain ⟨v1, rem1, ov1, hp1, hl1⟩ := ih .factor rest (by simp only [pfnRank]; omega)
            obtain ⟨v2, rem2, ov2, hp2, hl2⟩ := ih (.termLoop (jdivJS left v1) (ov || ov1)) rem1
              (by simp only [pfnRank]; omega)
            refine ⟨v2, rem2, ov2, ?_, by simp only [List.length_cons]; omega⟩
            rw [parseStep_termLoop_cons, if_neg ht, if_pos ht2, hp1]
            simpa using hp2
          · by_cases ht3 : t = ['%']
            · obtain ⟨v1, rem1, ov1, hp1, hl1⟩ := ih .factor rest (by simp only [pfnRank]; omega)
              obtain ⟨v2, rem2, ov2, hp2, hl2⟩ := ih (.termLoop (jmodJS left v1) (ov || ov1))
                rem1 (by simp only [pfnRank]; omega)
              refine ⟨v2, rem2, ov2, ?_, by simp only [List.length_cons]; omega⟩
              rw [parseStep_termLoop_cons, if_neg ht, if_neg ht2, if_pos ht3, hp1]
              simpa using hp2
            · exact ⟨left, t :: rest, ov,
                by rw [parseStep_termLoop_cons, if_neg ht, if_neg ht2, if_neg ht3], by simp⟩
    | factor =>
      cases ts with
      | nil => exact ⟨.nan, [], true, parseStep_factor_nil f, by simp⟩
      | cons t rest =>
        simp only [pfnRank, List.length_cons] at h
        by_cases ht : t = ['(']
        · obtain ⟨v1, rem1, ov1, hp1, hl1⟩ := ih .expr rest (by simp only [pfnRank]; omega)
          cases rem1 with
          | nil =>
            refine ⟨v1, [], ov1, ?_, by simp⟩
            rw [parseStep_factor_cons, if_pos ht, hp1]
            simp
          | cons u us =>
            by_cases hu : u = [')']
            · refine ⟨v1, us, ov1, ?_, by simp only [List.length_cons] at hl1 ⊢; omega⟩
              rw [parseStep_factor_cons, if_pos ht, hp1]
              simp [hu]
            · refine ⟨v1, u :: us, ov1, ?_, by simp only [List.length_cons] at hl1 ⊢; omega⟩
              rw [parseStep_factor_cons, if_pos ht, hp1]
              simp [hu]
        · by_cases ht2 : t = ['-']
          · obtain ⟨v1, rem1, ov1, hp1, hl1⟩ := ih .factor rest (by simp only [pfnRank]; omega)
            refine ⟨jneg v1, rem1, ov1, ?_, by simp only [List.length_cons]; omega⟩
            rw [parseStep_factor_cons, if_neg ht, if_pos ht2, hp1]
            simp
          · exact ⟨jsParseFloat t, rest, false,
              by rw [parseStep_factor_cons, if_neg ht, if_neg ht2], by simp⟩

/-! ## C3: when the evaluator answers NotAnExpression -/

/-- The `null` paths of `calculate`, exactly: empty sanitized string, no
digit, no tokens, or tokens not all consumed by the grammar (fuel
exhaustion is impossible by `parseStep_total`). -/
theorem evalRaw_none_iff (e : List Char) : evalRaw e = none ↔
    (sanitize e = [] ∨ hasDigit (sanitize e) = false ∨ tokenize (sanitize e) = [] ∨
      parseConsumedAll (tokenize (sanitize e)) = false) := by
  unfold evalRaw
  by_cases h1 : (sanitize e).isEmpty
  · rw [if_pos h1]
    simp [List.isEmpty_iff.mp h1]
  · rw [if_neg h1]
    have h1' : ¬sanitize e = [] := fun hh => h1 (by simp [hh])
    by_cases h2 : hasDigit (sanitize e)
    · rw [h2]
      simp only [Bool.not_true, Bool.false_eq_true, if_false]
      cases h3 : tokenize (sanitize e) with
      | nil => simp [h1', h2]
      | cons t ts =>
        obtain ⟨v, rem, ov, hp, _⟩ := parseStep_total (parseFuel (t :: ts)) .expr (t :: ts)
          (by unfold parseFuel; simp only [pfnRank]; omega)
        have hpc : parseConsumedAll (t :: ts) = (rem.isEmpty && !ov) := by
          unfold parseConsumedAll
          rw [hp]
        simp only [hp]
        constructor
        · intro hnone
          refine Or.inr (Or.inr (Or.inr ?_))
          rw [hpc]
          by_cases hc : (rem.isEmpty && !ov) = true
          · rw [if_pos hc] at hnone
            exact absurd hnone (by simp)
          · simpa using hc
        · intro hd
          rcases hd with hd | hd | hd | hd
          · exact absurd hd h1'
          · exact absurd hd (by simp)
          · exact absurd hd (by simp)
          · rw [hpc] at hd
            rw [if_neg (by simp [hd])]
    · have h2' : hasDigit (sanitize e) = false := by simpa using h2
      rw [h2']
      simp [h2']

/-- C3.  `evaluate("20*")` is `NotAnExpression` — not the arithmetic
error, hence also not a number — and in general the evaluator answers
`NotAnExpression` exactly when the sanitized string is empty, contains no
digit, produces no tokens, or is not fully consumed by the grammar
(trailing or missing material). -/
theorem calculate_notExpr_characterization :
    calculate "20*".data = CalcResult.notExpr ∧
    ¬calculate "20*".data = CalcResult.errorRes ∧
    (∀ e : List Char, calculate e = CalcResult.notExpr ↔
      (sanitize e = [] ∨ hasDigit (sanitize e) = false ∨ tokenize (sanitize e) = [] ∨
        parseConsumedAll (tokenize (sanitize e)) = false)) := by
  refine ⟨by decide, by decide, ?_⟩
  intro e
  rw [← evalRaw_none_iff]
  unfold calculate
  cases h : evalRaw e with
  | none => simp
  | some v => cases v <;> simp

/-! ## C10: an unclosed opening parenthesis is harmless -/

theorem wsCh_not_digit_op (c : Char) (h : isJsWsCh c = true) :
    isDigitCh c = false ∧ isOpCh c = false := by
  unfold isJsWsCh at h
  simp only [Bool.or_eq_true, Bool.and_eq_true, decide_eq_true_eq] at h
  constructor
  · cases hd : isDigitCh c with
    | false => rfl
    | true =>
      exfalso
      unfold isDigitCh at hd
      simp only [Bool.and_eq_true, decide_eq_true_eq] at hd
      omega
  · cases hd : isOpCh c with
    | false => rfl
    | true =>
      exfalso
      unfold isOpCh at hd
      simp only [Bool.or_eq_true, decide_eq_true_eq] at hd
      omega

theorem dropWhile_append_singleton {p : Char → Bool} {a : Char} (l l2 : List Char)
    (h : p a = false) : (l ++ a :: l2).dropWhile p = l.dropWhile p ++ a :: l2 := by
  induction l with
  | nil => simp [List.dropWhile_cons, h]
  | cons c t ih =>
    rw [List.cons_append, List.dropWhile_cons, List.dropWhile_cons]
    by_cases hc : p c
    · rw [if_pos hc, if_pos hc, ih]
    · rw [if_neg hc, if_neg hc, List.cons_append]

theorem dropWhile_append_of_ne_nil {p : Char → Bool} : ∀ {l : List Char} (l2 : List Char),
    ¬l.dropWhile p = [] → (l ++ l2).dropWhile p = l.dropWhile p ++ l2 := by
  intro l
  induction l with
  | nil => intro l2 h; exact absurd rfl h
  | cons c t ih =>
    intro l2 h
    by_cases hc : p c = true
    · rw [List.dropWhile_cons, if_pos hc] at h
      rw [List.cons_append, List.dropWhile_cons, if_pos hc, List.dropWhile_cons, if_pos hc]
      exact ih l2 h
    · rw [List.cons_append, List.dropWhile_cons, if_neg hc, List.dropWhile_cons, if_neg hc,
        List.cons_append]

theorem trimWs_open_paren (xs : List Char) :
    trimWs ('(' :: xs) = '(' :: rtrimWs xs := by
  unfold trimWs ltrimWs rtrimWs
  have h1 : ('(' :: xs).dropWhile isJsWsCh = '(' :: xs := by
    rw [List.dropWhile_cons, if_neg (by decide)]
  rw [h1]
  rw [List.reverse_cons, dropWhile_append_singleton _ _ (by decide)]
  rw [List.reverse_append]
  rfl

theorem rtrimWs_append_of_ne_nil (wsp core : List Char) (h : ¬rtrimWs core = []) :
    rtrimWs (wsp ++ core) = wsp ++ rtrimWs core := by
  unfold rtrimWs at h ⊢
  rw [List.reverse_append]
  have h2 : ¬core.reverse.dropWhile isJsWsCh = [] := by
    intro hh
    rw [hh] at h
    exact h rfl
  rw [dropWhile_append_of_ne_nil _ h2, List.reverse_append, List.reverse_reverse]

theorem dropWhile_head_false {p : Char → Bool} : ∀ (l : List Char) {c : Char}
    {t : List Char}, List.dropWhile p l = c :: t → p c = false := by
  intro l
  induction l with
  | nil => intro c t h; simp at h
  | cons a as ih =>
    intro c t h
    rw [List.dropWhile_cons] at h
    by_cases ha : p a = true
    · rw [if_pos ha] at h
      exact ih h
    · rw [if_neg ha] at h
      cases h
      simpa using ha

theorem rtrimWs_ne_nil_of_head {c : Char} {t : List Char} (h : isJsWsCh c = false) :
    ¬rtrimWs (c :: t) = [] := by
  intro hh
  unfold rtrimWs at hh
  have h2 : (c :: t).reverse.dropWhile isJsWsCh = [] := by
    have := congrArg List.reverse hh
    simpa using this
  rw [List.dropWhile_eq_nil_iff] at h2
  have hc : c ∈ (c :: t).reverse := by simp
  rw [h2 c hc] at h
  exact absurd h (by simp)

theorem tokGo_skip_ws : ∀ (wsp s : List Char), wsp.all isJsWsCh = true →
    tokGo (wsp ++ s) .norm = tokGo s .norm := by
  intro wsp
  induction wsp with
  | nil => intro s _; rfl
  | cons c t ih =>
    intro s hall
    simp only [List.all_cons, Bool.and_eq_true] at hall
    obtain ⟨hd, ho⟩ := wsCh_not_digit_op c hall.1
    rw [List.cons_append, tokGo, hd]
    simp only [Bool.false_eq_true, if_false]
    rw [ho]
    simp only [Bool.false_eq_true, if_false]
    exact ih s hall.2

theorem hasDigit_ws_false (wsp : List Char) (h : wsp.all isJsWsCh = true) :
    hasDigit wsp = false := by
  unfold hasDigit
  cases ha : wsp.any isDigitCh with
  | false => rfl
  | true =>
    exfalso
    rw [List.any_eq_true] at ha
    obtain ⟨c, hc, hdig⟩ := ha
    rw [List.all_eq_true] at h
    have := (wsCh_not_digit_op c (h c hc)).1
    rw [this] at hdig
    exact absurd hdig (by simp)

theorem tokGo_open_paren (s : List Char) :
    tokGo ('(' :: s) .norm = ['('] :: tokGo s .norm := by
  rw [tokGo]
  rw [show isDigitCh '(' = false from rfl]
  simp only [Bool.false_eq_true, if_false]
  rw [show isOpCh '(' = true from rfl]
  simp only [if_true]

/-- Prepending `(` to an input that evaluates successfully leaves the
whole pipeline result unchanged: the parenthesis survives sanitizing,
becomes one extra leading token, and `parseFactor` consumes a closing
parenthesis only when one is present. -/
theorem evalRaw_open_paren (e : List Char) (v : JVal) (hv : evalRaw e = some v) :
    evalRaw ('(' :: e) = some v := by
  unfold evalRaw at hv
  have h1 : (sanitize e).isEmpty = false := by
    by_contra hc
    have h1t : (sanitize e).isEmpty = true := by simpa using hc
    rw [if_pos h1t] at hv
    exact absurd hv (by simp)
  rw [h1] at hv
  simp only [Bool.false_eq_true, if_false] at hv
  have h2 : hasDigit (sanitize e) = true := by
    by_contra hc
    have h2f : hasDigit (sanitize e) = false := by simpa using hc
    rw [h2f] at hv
    exact absurd hv (by simp)
  rw [h2] at hv
  simp only [Bool.not_true, Bool.false_eq_true, if_false] at hv
  cases h3 : tokenize (sanitize e) with
  | nil =>
    rw [h3] at hv
    exact absurd hv (by simp)
  | cons t ts =>
    rw [h3] at hv
    cases hp : parseStep (parseFuel (t :: ts)) .expr (t :: ts) with
    | none =>
      simp only [hp] at hv
      exact absurd hv (by simp)
    | some r =>
      obtain ⟨v1, rem, ov⟩ := r
      simp only [hp] at hv
      have hc : (rem.isEmpty && !ov) = true := by
        by_contra hcc
        rw [if_neg (by simpa using hcc)] at hv
        exact absurd hv (by simp)
      rw [if_pos hc] at hv
      obtain ⟨hrem, hov⟩ : rem = [] ∧ ov = false := by
        cases rem with
        | cons a b => simp at hc
        | nil =>
          cases ov with
          | true => simp at hc
          | false => exact ⟨rfl, rfl⟩
      subst hrem
      subst hov
      have hveq : v1 = v := by injection hv
      rw [hveq] at hp
      have hsan2 : sanitize e = rtrimWs ((e.filter sanitizeKeep).dropWhile isJsWsCh) := rfl
      have hcne : ¬(e.filter sanitizeKeep).dropWhile isJsWsCh = [] := by
        intro hh
        rw [hsan2, hh] at h1
        exact absurd h1 (by simp [rtrimWs])
      obtain ⟨c0, t0, hct⟩ : ∃ c0 t0, (e.filter sanitizeKeep).dropWhile isJsWsCh = c0 :: t0 := by
        cases hcc : (e.filter sanitizeKeep).dropWhile isJsWsCh with
        | nil => exact absurd hcc hcne
        | cons a b => exact ⟨a, b, rfl⟩
      have hc0 : isJsWsCh c0 = false := dropWhile_head_false (e.filter sanitizeKeep) hct
      have hrt_ne : ¬rtrimWs ((e.filter sanitizeKeep).dropWhile isJsWsCh) = [] := by
        rw [hct]
        exact rtrimWs_ne_nil_of_head hc0
      have hsplit : e.filter sanitizeKeep =
          (e.filter sanitizeKeep).takeWhile isJsWsCh ++
            (e.filter sanitizeKeep).dropWhile isJsWsCh :=
        (List.takeWhile_append_dropWhile _ _).symm
      have hfl : ('(' :: e).filter sanitizeKeep = '(' :: e.filter sanitizeKeep := by
        rw [List.filter_cons]
        rw [show sanitizeKeep '(' = true from rfl]
        simp
      have hs' : sanitize ('(' :: e) =
          '(' :: ((e.filter sanitizeKeep).takeWhile isJsWsCh ++
            rtrimWs ((e.filter sanitizeKeep).dropWhile isJsWsCh)) := by
        show trimWs (('(' :: e).filter sanitizeKeep) = _
        rw [hfl, trimWs_open_paren]
        conv_lhs => rw [hsplit]
        rw [rtrimWs_append_of_ne_nil _ _ hrt_ne]
      have hwall : ((e.filter sanitizeKeep).takeWhile isJsWsCh).all isJsWsCh = true :=
        List.all_takeWhile
      have htokeq : tokGo (rtrimWs ((e.filter sanitizeKeep).dropWhile isJsWsCh))
          TokMode.norm = t :: ts := by
        rw [show rtrimWs ((e.filter sanitizeKeep).dropWhile isJsWsCh) = sanitize e
          from hsan2.symm]
        exact h3
      have htok : tokenize (sanitize ('(' :: e)) = ['('] :: t :: ts := by
        rw [hs']
        unfold tokenize
        rw [tokGo_open_paren, tokGo_skip_ws _ _ hwall, htokeq]
      have hd' : hasDigit (sanitize ('(' :: e)) = true := by
        rw [hs']
        unfold hasDigit
        rw [List.any_cons, List.any_append]
        have hx : (rtrimWs ((e.filter sanitizeKeep).dropWhile isJsWsCh)).any isDigitCh
            = true := by
          rw [show rtrimWs ((e.filter sanitizeKeep).dropWhile isJsWsCh) = sanitize e
            from hsan2.symm]
          exact h2
        have hw0 : ((e.filter sanitizeKeep).takeWhile isJsWsCh).any isDigitCh = false :=
          hasDigit_ws_false _ hwall
        rw [hx, hw0]
        rfl
      have hne' : (sanitize ('(' :: e)).isEmpty = false := by
        rw [hs']
        rfl
      have hF5 : parseFuel (['('] :: t :: ts) = parseFuel (t :: ts) + 5 := by
        unfold parseFuel
        simp only [List.length_cons]
        omega
      have hm : parseStep (parseFuel (t :: ts) + 2) .expr (t :: ts) = some (v, [], false) :=
        parseStep_mono _ _ _ _ _ hp (by omega)
      have hfac : parseStep (parseFuel (t :: ts) + 3) .factor (['('] :: t :: ts) =
          some (v, [], false) := by
        rw [show parseFuel (t :: ts) + 3 = (parseFuel (t :: ts) + 2) + 1 from rfl,
          parseStep_factor_cons, if_pos rfl, hm]
        rfl
      have hterm2 : parseStep (parseFuel (t :: ts) + 4) .term (['('] :: t :: ts) =
          some (v, [], false) := by
        rw [show parseFuel (t :: ts) + 4 = (parseFuel (t :: ts) + 3) + 1 from rfl,
          parseStep_term, hfac]
        simp only [Option.some_bind]
        exact parseStep_termLoop_nil (parseFuel (t :: ts) + 2) v false
      have hexpr2 : parseStep (parseFuel (t :: ts) + 5) .expr (['('] :: t :: ts) =
          some (v, [], false) := by
        rw [show parseFuel (t :: ts) + 5 = (parseFuel (t :: ts) + 4) + 1 from rfl,
          parseStep_expr, hterm2]
        simp only [Option.some_bind]
        exact parseStep_exprLoop_nil (parseFuel (t :: ts) + 3) v false
      unfold evalRaw
      rw [hne']
      simp only [Bool.false_eq_true, if_false]
      rw [hd']
      simp only [Bool.not_true, Bool.false_eq_true, if_false]
      simp only [htok]
      rw [hF5, hexpr2]
      rfl

/-- C10.  An unclosed opening parenthesis is never by itself an
evaluation error: whenever `calculate e` is not `NotAnExpression`,
`calculate ("(" ++ e)` succeeds with the very same result — the parser
consumes a closing parenthesis only when one is present and does not
fail on its absence. -/
theorem calculate_open_paren (e : List Char) (h : ¬calculate e = CalcResult.notExpr) :
    calculate ('(' :: e) = calculate e := by
  obtain ⟨v, hv⟩ : ∃ v, evalRaw e = some v := by
    cases he : evalRaw e with
    | none => exact absurd (by unfold calculate; rw [he]) h
    | some w => exact ⟨w, rfl⟩
  have hv2 := evalRaw_open_paren e v hv
  unfold calculate
  rw [hv, hv2]

/-- C10 witness: `evaluate("(2+3") = 5`. -/
theorem calculate_open_paren_witness :
    calculate "(2+3".data = CalcResult.num ⟨5, 1⟩ := by
  have h := calculate_open_paren "2+3".data (by decide)
  have hh : ('(' :: "2+3".data) = "(2+3".data := rfl
  rw [hh] at h
  exact h.trans (by decide)

/-- C3 witness: `"1)"` tokenizes but leaves the `)` unconsumed, so the
characterization yields `NotAnExpression` through the fourth condition. -/
theorem calculate_notExpr_characterization_witness :
    calculate "1)".data = CalcResult.notExpr :=
  (calculate_notExpr_characterization.2.2 "1)".data).mpr
    (Or.inr (Or.inr (Or.inr (by decide))))
